import Mathlib

/-!
# Object identifiers (`lib/jobjectid.c`)

A shallow embedding of the JULEA object-id module: the 12-byte identifier
(a union of `gint32 ints[3]` and `gchar chars[12]`), its construction from
caller bytes, its initialisation from wall-clock time, process id and a
process-wide counter, its hexadecimal digest and its raw-data accessor.

Conventions of the embedding:
* a byte of memory is a `Fin 256`; the identifier is `Fin 12 → Fin 256`;
* a C pointer that may be `NULL` is an `Option`;
* `gint32`, `GPid` and `glong` values are `Int`; a store of a 32-bit word
  keeps the value modulo `2^32` (two's complement);
* the two platform choices the C text depends on, the byte order of the
  host and the signedness of plain `char`, are fields of `Host`, and the
  theorems hold for every `Host`;
* function-local `static` variables are the fields of `Statics`, threaded
  through `j_object_id_init` explicitly;
* memory returned by an allocator has unspecified content, which is passed
  in as an argument.
-/

namespace JObjectId

/-- One byte of memory. -/
abbrev Byte := Fin 256

/-- Byte order of the host (`G_BYTE_ORDER`). -/
inductive ByteOrder where
  | littleEndian
  | bigEndian
  deriving DecidableEq, Repr

/-- The platform properties the C text depends on. -/
structure Host where
  /-- Host byte order. -/
  byteOrder : ByteOrder
  /-- Whether plain `char` (and so `gchar`) is a signed type. -/
  charSigned : Bool
  deriving DecidableEq, Repr

/-- `struct JObjectID`: the union `data`, seen through its `chars[12]` member. -/
structure JObjectID where
  /-- The twelve bytes of `data`. -/
  chars : Fin 12 → Byte
  deriving DecidableEq

/-! ## Hexadecimal digest -/

/-- The local table `gchar hex[16]` of `j_object_id_hex`. -/
def hex : List Char :=
  '0' :: '1' :: '2' :: '3' ::
  '4' :: '5' :: '6' :: '7' ::
  '8' :: '9' :: 'a' :: 'b' ::
  'c' :: 'd' :: 'e' :: 'f' :: []

/-- The value of a `gchar` holding byte `b`, after integer promotion: the byte
itself where `char` is unsigned, its two's-complement reading where it is
signed. -/
def gcharValue (host : Host) (b : Byte) : Int :=
  if host.charSigned ∧ 128 ≤ b.val then (b.val : Int) - 256 else (b.val : Int)

/-- The expression `hex[(c >> 4) & 0x0F]`; `>>` on a negative `int` is the
arithmetic shift. -/
def hexHigh (host : Host) (b : Byte) : Char :=
  hex.getD (Int.land (gcharValue host b >>> (4 : Nat)) 0x0F).toNat '\x00'

/-- The expression `hex[c & 0x0F]`. -/
def hexLow (host : Host) (b : Byte) : Char :=
  hex.getD (Int.land (gcharValue host b) 0x0F).toNat '\x00'

/-- One iteration of the `for` loop of `j_object_id_hex`. -/
def hexLoopBody (host : Host) (id : JObjectID) (hash : Fin 25 → Char) (i : Fin 12) :
    Fin 25 → Char :=
  let hash := Function.update hash ⟨2 * i.val, by omega⟩ (hexHigh host (id.chars i))
  Function.update hash ⟨2 * i.val + 1, by omega⟩ (hexLow host (id.chars i))

/-- `j_object_id_hex`: `fresh` is the unspecified content of the 25 bytes
`g_new(gchar, 25)` returns. The result is the whole buffer, terminator
included; `none` is the `NULL` of `g_return_val_if_fail`. -/
def j_object_id_hex (host : Host) (fresh : Fin 25 → Char) (id : Option JObjectID) :
    Option (Fin 25 → Char) :=
  match id with
  | none => none
  | some id =>
    let hash := (List.finRange 12).foldl (hexLoopBody host id) fresh
    some (Function.update hash 24 '\x00')

/-- The C string held in a buffer: the characters before the first NUL. -/
def cString {n : Nat} (buf : Fin n → Char) : List Char :=
  (List.ofFn buf).takeWhile (fun c => c != '\x00')

/-! ## 32-bit words in the identifier's memory -/

/-- The bit pattern of a 32-bit integer: its value modulo `2^32`. -/
def bits32 (v : Int) : Nat :=
  (v % 2 ^ 32).toNat

/-- The `gint32` a 32-bit pattern stands for (two's complement); it is the
conversion `(gint32) w`. -/
def toGint32 (w : Nat) : Int :=
  if w % 2 ^ 32 < 2 ^ 31 then ((w % 2 ^ 32 : Nat) : Int) else ((w % 2 ^ 32 : Nat) : Int) - 2 ^ 32

/-- The byte at offset `j` (0..3) of the 32-bit word `w` as the host lays it
out in memory. -/
def wordByte (order : ByteOrder) (w : Nat) (j : Nat) : Nat :=
  match order with
  | .littleEndian => w / 256 ^ j % 256
  | .bigEndian => w / 256 ^ (3 - j) % 256

/-- The assignment `id->data.ints[k] = v`: through the union it replaces the
four bytes `chars[4k .. 4k+3]` by the host's layout of `v`. -/
def setInt (host : Host) (id : JObjectID) (k : Nat) (v : Int) : JObjectID :=
  { chars := fun i =>
      if i.val / 4 = k then
        ⟨wordByte host.byteOrder (bits32 v) (i.val % 4) % 256, Nat.mod_lt _ (by decide)⟩
      else id.chars i }

/-- The 32-bit word the host reads from the four bytes `b0 b1 b2 b3` found
at increasing addresses. -/
def wordOfBytes (order : ByteOrder) (b0 b1 b2 b3 : Nat) : Nat :=
  match order with
  | .littleEndian => b0 + 256 * b1 + 256 ^ 2 * b2 + 256 ^ 3 * b3
  | .bigEndian => b3 + 256 * b2 + 256 ^ 2 * b1 + 256 ^ 3 * b0

/-- The read `id->data.ints[k]`, in the host's byte order (no byte swap). -/
def getInt (host : Host) (id : JObjectID) (k : Fin 3) : Int :=
  toGint32 (wordOfBytes host.byteOrder
    (id.chars ⟨4 * k.val, by omega⟩).val (id.chars ⟨4 * k.val + 1, by omega⟩).val
    (id.chars ⟨4 * k.val + 2, by omega⟩).val (id.chars ⟨4 * k.val + 3, by omega⟩).val)

/-- Modelled from the spec: the glib macro `GUINT32_SWAP_LE_BE` is not under
src/; it reverses the order of the four bytes of a 32-bit word. -/
def GUINT32_SWAP_LE_BE (w : Nat) : Nat :=
  w % 256 * 256 ^ 3 + w / 256 % 256 * 256 ^ 2 + w / 256 ^ 2 % 256 * 256 + w / 256 ^ 3 % 256

/-- Modelled from the spec: the glib macro `GINT32_TO_BE` is not under src/; it
converts the low 32 bits of its argument from host to big-endian byte order,
which is a byte swap on a little-endian host and a plain conversion to
`gint32` on a big-endian one. -/
def GINT32_TO_BE (host : Host) (val : Int) : Int :=
  match host.byteOrder with
  | .littleEndian => toGint32 (GUINT32_SWAP_LE_BE (bits32 val))
  | .bigEndian => toGint32 (bits32 val)

/-! ## Process-wide state and the operating system -/

/-- The function-local statics of `j_object_id_init`. -/
structure Statics where
  /-- The variable `static GPid pid`. -/
  pid : Int
  /-- The variable `static gint32 counter`. -/
  counter : Int
  deriving DecidableEq, Repr

/-- The statics at process start: `pid = 0`, `counter = 0`. -/
def Statics.initial : Statics :=
  { pid := 0, counter := 0 }

/-- What the operating system answers during one call of `j_object_id_init`. -/
structure Env where
  /-- The result `getpid()` has, if it is called. -/
  getpid : Int
  /-- The member `tv_sec` that `g_get_current_time` fills in. -/
  tv_sec : Int
  /-- The member `tv_usec` that `g_get_current_time` fills in. -/
  tv_usec : Int
  deriving DecidableEq, Repr

/-- Modelled from the spec: glib's `g_atomic_int_exchange_and_add` is not under
src/; it adds `val` to the 32-bit integer `atomic` in one indivisible step,
wrapping on overflow, and returns the value from before the addition. The
result is the pair of the returned value and the new content. -/
def g_atomic_int_exchange_and_add (atomic : Int) (val : Int) : Int × Int :=
  (atomic, toGint32 (bits32 (atomic + val)))

/-! ## The operations -/

/-- `j_object_id_init`: from the statics and the identifier behind `id` before
the call to the statics and the identifier after it. A `NULL` pointer
returns at `g_return_if_fail` before anything is read or written. -/
def j_object_id_init (host : Host) (os : Env) (st : Statics) (id : Option JObjectID) :
    Statics × Option JObjectID :=
  match id with
  | none => (st, none)
  | some id =>
    let pid := if st.pid = 0 then os.getpid else st.pid
    let tv_sec := os.tv_sec
    let (c, counter) := g_atomic_int_exchange_and_add st.counter 1
    let id := setInt host id 0 (GINT32_TO_BE host tv_sec)
    let id := setInt host id 1 pid
    let id := setInt host id 2 (GINT32_TO_BE host c)
    ({ pid := pid, counter := counter }, some id)

/-- `j_object_id_new`: `fresh` is the unspecified content of the block
`g_slice_new(JObjectID)` returns; `initialise` is the parameter the source
spells with a z, a reserved word here. -/
def j_object_id_new (host : Host) (os : Env) (st : Statics) (fresh : JObjectID)
    (initialise : Bool) : Statics × Option JObjectID :=
  let id := fresh
  if initialise then j_object_id_init host os st (some id) else (st, some id)

/-- The call `memcpy(&(id->data), data, n)` for `n ≤ 12`: `src` is the memory
at and after the source address. -/
def memcpy (dst : JObjectID) (src : Nat → Byte) (n : Nat) : JObjectID :=
  { chars := fun i => if i.val < n then src i.val else dst.chars i }

/-- `j_object_id_new_for_data`: `data` is `none` for `NULL`, else the memory at
and after the address; `fresh` is the unspecified content of the new block. -/
def j_object_id_new_for_data (fresh : JObjectID) (data : Option (Nat → Byte)) :
    Option JObjectID :=
  match data with
  | none => none
  | some data =>
    let id := fresh
    some (memcpy id data 12)

/-- `j_object_id_data`: the address of `id->data`, seen as the twelve bytes
found there. -/
def j_object_id_data (id : Option JObjectID) : Option (Fin 12 → Byte) :=
  match id with
  | none => none
  | some id => some id.chars

/-- A call of `j_object_id_hex` as a transition of the process: the statics
and the identifier behind `id` after the call, and the returned buffer. The
body has no assignment to either. -/
def j_object_id_hex_call (host : Host) (fresh : Fin 25 → Char) (st : Statics)
    (id : Option JObjectID) : Statics × Option JObjectID × Option (Fin 25 → Char) :=
  (st, id, j_object_id_hex host fresh id)

/-- A caller that runs `j_object_id_init` on a list of identifiers in turn,
each call with its own answers from the operating system; it returns the
last statics and the identifiers in call order. -/
def initAll (host : Host) : Statics → List (Env × JObjectID) → Statics × List JObjectID
  | st, [] => (st, [])
  | st, (os, id) :: rest =>
    match j_object_id_init host os st (some id) with
    | (st1, some id1) =>
      let r := initAll host st1 rest
      (r.1, id1 :: r.2)
    | (st1, none) => initAll host st1 rest

/-! ## Reading an identifier and a digest -/

/-- The twelve bytes of an identifier as a list of unsigned values. -/
def bytes (id : JObjectID) : List Nat :=
  List.ofFn (fun i => (id.chars i).val)

/-- Big-endian decoding of the four bytes at offset `4k`. -/
def decodeBE (id : JObjectID) (k : Fin 3) : Nat :=
  wordOfBytes .bigEndian
    (id.chars ⟨4 * k.val, by omega⟩).val (id.chars ⟨4 * k.val + 1, by omega⟩).val
    (id.chars ⟨4 * k.val + 2, by omega⟩).val (id.chars ⟨4 * k.val + 3, by omega⟩).val

/-- Big-endian encoding of a 32-bit word: most significant byte first. -/
def encodeBE (w : Nat) : List Nat :=
  [w / 256 ^ 3 % 256, w / 256 ^ 2 % 256, w / 256 % 256, w % 256]

/-- The sixteen characters a digest may contain. -/
def lowerHexDigits : List Char :=
  "0123456789abcdef".toList

/-- The value of a lowercase hexadecimal digit, from its ASCII code: 48..57
are `0`..`9` and 97..102 are `a`..`f`. -/
def hexDigitValue (c : Char) : Option Nat :=
  let code := c.toNat
  if 48 ≤ code ∧ code ≤ 57 then some (code - 48)
  else if 97 ≤ code ∧ code ≤ 102 then some (code - 87)
  else none

/-- Decoding of a digest two characters per byte, the first character being
the high nibble. -/
def decodeHex : List Char → Option (List Nat)
  | [] => some []
  | [_] => none
  | h :: l :: rest =>
    match hexDigitValue h, hexDigitValue l, decodeHex rest with
    | some hv, some lv, some bs => some ((16 * hv + lv) :: bs)
    | _, _, _ => none

/-- The lowercase hexadecimal digit of a nibble `n < 16`, by ASCII code:
`0`..`9` are 48..57 and `a`..`f` are 97..102. -/
def hexDigit (n : Nat) : Char :=
  Char.ofNat (if n < 10 then 48 + n else 87 + n)

/-- The rendering rule of the digest: two lowercase hexadecimal digits per
byte, most significant nibble first, bytes in storage order. -/
def hexOfBytes : List Nat → List Char
  | [] => []
  | b :: bs => hexDigit (b / 16) :: hexDigit (b % 16) :: hexOfBytes bs

/-- The identifier with bytes `00 00 00 01 00 00 00 02 00 00 00 03`. -/
def exampleId : JObjectID :=
  { chars := ![0, 0, 0, 1, 0, 0, 0, 2, 0, 0, 0, 3] }

/-- The four bytes of the 32-bit word `w` in the order the host stores
them. -/
def hostBytes (order : ByteOrder) (w : Nat) : List Nat :=
  [wordByte order w 0, wordByte order w 1, wordByte order w 2, wordByte order w 3]

/-- The value `j_object_id_init` keeps in, and stores from, `pid`. -/
def pidOf (os : Env) (st : Statics) : Int :=
  if st.pid = 0 then os.getpid else st.pid

/-- The statics `j_object_id_init` leaves behind after a call on a non-null
identifier. -/
def nextStatics (os : Env) (st : Statics) : Statics :=
  { pid := pidOf os st, counter := toGint32 (bits32 (st.counter + 1)) }

/-! ## Arithmetic of the nibble expressions -/

theorem ldiff_fifteen (m : Nat) : Nat.ldiff 15 m = 15 - m % 16 := by
  have h1 : Nat.ldiff 15 m = 15 ^^^ (m &&& 15) := by
    apply Nat.eq_of_testBit_eq
    intro i
    rw [Nat.testBit_ldiff, Nat.testBit_xor, Nat.testBit_and]
    cases Nat.testBit 15 i <;> cases Nat.testBit m i <;> rfl
  have h2 : m &&& 15 = m % 16 := Nat.and_pow_two_sub_one_eq_mod m 4
  rw [h1, h2]
  have h3 : ∀ r : Fin 16, 15 ^^^ r.val = 15 - r.val := by decide
  exact h3 ⟨m % 16, Nat.mod_lt _ (by decide)⟩

theorem land_fifteen (x : Int) : Int.land x 0x0F = x % 16 := by
  cases x with
  | ofNat n =>
    show ((n &&& 15 : Nat) : Int) = (n : Int) % 16
    rw [show n &&& 15 = n % 16 from Nat.and_pow_two_sub_one_eq_mod n 4]
    omega
  | negSucc m =>
    show ((Nat.ldiff 15 m : Nat) : Int) = Int.negSucc m % 16
    rw [ldiff_fifteen, Int.negSucc_eq]
    omega

theorem hex_getD_eq : ∀ n : Fin 16, hex.getD n.val '\x00' = hexDigit n.val := by
  decide

theorem hexHigh_eq (host : Host) (b : Byte) : hexHigh host b = hexDigit (b.val / 16) := by
  have hb := b.isLt
  have h16 : ((2 ^ 4 : Nat) : Int) = 16 := by norm_num
  have key : (Int.land (gcharValue host b >>> (4 : Nat)) 0x0F).toNat = b.val / 16 := by
    rw [land_fifteen, Int.shiftRight_eq_div_pow, h16]
    unfold gcharValue
    split <;> omega
  unfold hexHigh
  rw [key]
  exact hex_getD_eq ⟨b.val / 16, by omega⟩

theorem hexLow_eq (host : Host) (b : Byte) : hexLow host b = hexDigit (b.val % 16) := by
  have hb := b.isLt
  have key : (Int.land (gcharValue host b) 0x0F).toNat = b.val % 16 := by
    rw [land_fifteen]
    unfold gcharValue
    split <;> omega
  unfold hexLow
  rw [key]
  exact hex_getD_eq ⟨b.val % 16, by omega⟩

/-! ## The loop of `j_object_id_hex` -/

/-- What the loop has written once it has run over the indices in `l`:
position `k` holds the digit of nibble `k % 2` of byte `k / 2` when that byte
is among `l`, and is untouched otherwise. -/
theorem hexLoop_apply (host : Host) (id : JObjectID) (l : List (Fin 12))
    (hash : Fin 25 → Char) (k : Fin 25) :
    (l.foldl (hexLoopBody host id) hash) k =
      if h : ∃ i ∈ l, i.val = k.val / 2 then
        (if k.val % 2 = 0 then hexDigit ((id.chars ⟨k.val / 2, by
            obtain ⟨i, _, hi⟩ := h
            omega⟩).val / 16)
         else hexDigit ((id.chars ⟨k.val / 2, by
            obtain ⟨i, _, hi⟩ := h
            omega⟩).val % 16))
      else hash k := by
  induction l generalizing hash with
  | nil => simp
  | cons a l ih =>
    rw [List.foldl_cons, ih]
    by_cases hl : ∃ i ∈ l, i.val = k.val / 2
    · have hal : ∃ i ∈ a :: l, i.val = k.val / 2 := by
        obtain ⟨i, hi, he⟩ := hl
        exact ⟨i, List.mem_cons_of_mem _ hi, he⟩
      rw [dif_pos hl, dif_pos hal]
    · rw [dif_neg hl]
      by_cases ha : a.val = k.val / 2
      · have hal : ∃ i ∈ a :: l, i.val = k.val / 2 := ⟨a, List.mem_cons_self _ _, ha⟩
        rw [dif_pos hal]
        have hka : (⟨k.val / 2, by omega⟩ : Fin 12) = a := Fin.ext ha.symm
        rw [hka]
        unfold hexLoopBody
        by_cases hpar : k.val % 2 = 0
        · have h1 : k ≠ ⟨2 * a.val + 1, by omega⟩ := by
            intro h
            have := congrArg Fin.val h
            simp at this
            omega
          have h2 : k = ⟨2 * a.val, by omega⟩ := Fin.ext (by simp; omega)
          rw [if_pos hpar, Function.update_noteq h1, h2, Function.update_same, hexHigh_eq]
        · have h1 : k = ⟨2 * a.val + 1, by omega⟩ := Fin.ext (by simp; omega)
          rw [if_neg hpar, h1, Function.update_same, hexLow_eq]
      · have hal : ¬ ∃ i ∈ a :: l, i.val = k.val / 2 := by
          rintro ⟨i, hi, he⟩
          rcases List.mem_cons.mp hi with rfl | hi
          · exact ha he
          · exact hl ⟨i, hi, he⟩
        rw [dif_neg hal]
        unfold hexLoopBody
        have h1 : k ≠ ⟨2 * a.val + 1, by omega⟩ := by
          intro h
          have := congrArg Fin.val h
          simp at this
          omega
        have h2 : k ≠ ⟨2 * a.val, by omega⟩ := by
          intro h
          have := congrArg Fin.val h
          simp at this
          omega
        rw [Function.update_noteq h1, Function.update_noteq h2]

/-- The buffer `j_object_id_hex` returns for a non-null identifier. -/
theorem hex_some (host : Host) (fresh : Fin 25 → Char) (id : JObjectID) :
    j_object_id_hex host fresh (some id) =
      some (Function.update ((List.finRange 12).foldl (hexLoopBody host id) fresh) 24 '\x00') :=
  rfl

/-- Every position of the returned buffer in closed form. -/
theorem hex_apply (host : Host) (fresh : Fin 25 → Char) (id : JObjectID) (k : Fin 25) :
    Function.update ((List.finRange 12).foldl (hexLoopBody host id) fresh) 24 '\x00' k =
      if h : k.val / 2 < 12 then
        (if k.val % 2 = 0 then hexDigit ((id.chars ⟨k.val / 2, h⟩).val / 16)
         else hexDigit ((id.chars ⟨k.val / 2, h⟩).val % 16))
      else '\x00' := by
  by_cases hk : k = 24
  · subst hk
    rw [Function.update_same]
    rfl
  · have hlt : k.val / 2 < 12 := by
      have h1 : k.val ≠ 24 := fun h => hk (Fin.ext h)
      have h2 := k.isLt
      omega
    have hex : ∃ j ∈ List.finRange 12, j.val = k.val / 2 :=
      ⟨⟨k.val / 2, hlt⟩, List.mem_finRange _, rfl⟩
    rw [Function.update_noteq hk, hexLoop_apply, dif_pos hex, dif_pos hlt]

theorem hex_high_at (host : Host) (fresh : Fin 25 → Char) (id : JObjectID) (i : Fin 12) :
    Function.update ((List.finRange 12).foldl (hexLoopBody host id) fresh) 24 '\x00'
        ⟨2 * i.val, by omega⟩ = hexDigit ((id.chars i).val / 16) := by
  have hi : (2 * i.val) / 2 = i.val := by omega
  rw [hex_apply]
  simp [hi]

theorem hex_low_at (host : Host) (fresh : Fin 25 → Char) (id : JObjectID) (i : Fin 12) :
    Function.update ((List.finRange 12).foldl (hexLoopBody host id) fresh) 24 '\x00'
        ⟨2 * i.val + 1, by omega⟩ = hexDigit ((id.chars i).val % 16) := by
  have hi : (2 * i.val + 1) / 2 = i.val := by omega
  have hm : (2 * i.val + 1) % 2 = 1 := by omega
  rw [hex_apply]
  simp [hi, hm]

/-- The returned buffer, read from the start, is the rendering of the twelve
bytes followed by the terminator, whatever the buffer held before. -/
theorem hex_ofFn (host : Host) (fresh : Fin 25 → Char) (id : JObjectID) :
    List.ofFn (Function.update ((List.finRange 12).foldl (hexLoopBody host id) fresh) 24 '\x00')
      = hexOfBytes (bytes id) ++ ['\x00'] := by
  simp only [bytes, List.ofFn_succ, List.ofFn_zero, hexOfBytes, hex_apply]
  simp

/-! ## The rendering rule and its decoder -/

theorem hexDigit_ne_nul : ∀ n : Fin 16, (hexDigit n.val != '\x00') = true := by
  decide

theorem hexDigit_range : ∀ n : Fin 16, hexDigit n.val ∈ lowerHexDigits := by
  decide

theorem hexDigitValue_hexDigit : ∀ n : Fin 16, hexDigitValue (hexDigit n.val) = some n.val := by
  decide

theorem bytes_lt (id : JObjectID) : ∀ b ∈ bytes id, b < 256 := by
  intro b hb
  unfold bytes at hb
  rw [List.mem_ofFn] at hb
  obtain ⟨i, rfl⟩ := hb
  exact (id.chars i).isLt

theorem bytes_length (id : JObjectID) : (bytes id).length = 12 := by
  simp [bytes]

theorem hexOfBytes_length (l : List Nat) : (hexOfBytes l).length = 2 * l.length := by
  induction l with
  | nil => rfl
  | cons b bs ih => simp [hexOfBytes, ih]; omega

theorem takeWhile_hexOfBytes (l : List Nat) (h : ∀ b ∈ l, b < 256) :
    (hexOfBytes l ++ ['\x00']).takeWhile (fun c => c != '\x00') = hexOfBytes l := by
  induction l with
  | nil => rfl
  | cons b bs ih =>
    have hb : b < 256 := h b (List.mem_cons_self _ _)
    have h1 := hexDigit_ne_nul ⟨b / 16, by omega⟩
    have h2 := hexDigit_ne_nul ⟨b % 16, by omega⟩
    simp only [hexOfBytes, List.cons_append, List.takeWhile_cons, h1, h2, if_true]
    rw [ih (fun x hx => h x (List.mem_cons_of_mem _ hx))]

theorem hexOfBytes_range (l : List Nat) (h : ∀ b ∈ l, b < 256) :
    ∀ c ∈ hexOfBytes l, c ∈ lowerHexDigits := by
  induction l with
  | nil => intro c hc; simp [hexOfBytes] at hc
  | cons b bs ih =>
    have hb : b < 256 := h b (List.mem_cons_self _ _)
    intro c hc
    simp only [hexOfBytes, List.mem_cons] at hc
    rcases hc with rfl | rfl | hc
    · exact hexDigit_range ⟨b / 16, by omega⟩
    · exact hexDigit_range ⟨b % 16, by omega⟩
    · exact ih (fun x hx => h x (List.mem_cons_of_mem _ hx)) c hc

theorem decodeHex_hexOfBytes (l : List Nat) (h : ∀ b ∈ l, b < 256) :
    decodeHex (hexOfBytes l) = some l := by
  induction l with
  | nil => rfl
  | cons b bs ih =>
    have hb : b < 256 := h b (List.mem_cons_self _ _)
    have h1 := hexDigitValue_hexDigit ⟨b / 16, by omega⟩
    have h2 := hexDigitValue_hexDigit ⟨b % 16, by omega⟩
    simp only at h1 h2
    simp only [hexOfBytes, decodeHex, h1, h2, ih (fun x hx => h x (List.mem_cons_of_mem _ hx))]
    congr 2
    omega

/-- The C string in the returned buffer is the rendering of the twelve bytes. -/
theorem cString_hex (host : Host) (fresh : Fin 25 → Char) (id : JObjectID) :
    cString (Function.update ((List.finRange 12).foldl (hexLoopBody host id) fresh) 24 '\x00')
      = hexOfBytes (bytes id) := by
  unfold cString
  rw [hex_ofFn, takeWhile_hexOfBytes _ (bytes_lt id)]

/-! ## Claims on the digest and on construction from bytes -/

/-- C1: for every identifier `j_object_id_hex` returns a string of exactly 24
characters, each in `[0-9a-f]`, and decoding it two characters per byte (the
first being the high nibble) gives back the twelve bytes in order. -/
theorem hex_roundtrip (host : Host) (fresh : Fin 25 → Char) (id : JObjectID) :
    ∃ buf, j_object_id_hex host fresh (some id) = some buf ∧
      (cString buf).length = 24 ∧
      (∀ c ∈ cString buf, c ∈ lowerHexDigits) ∧
      decodeHex (cString buf) = some (bytes id) := by
  refine ⟨_, hex_some host fresh id, ?_, ?_, ?_⟩
  · rw [cString_hex, hexOfBytes_length, bytes_length]
  · rw [cString_hex]
    exact hexOfBytes_range _ (bytes_lt id)
  · rw [cString_hex]
    exact decodeHex_hexOfBytes _ (bytes_lt id)

/-- C2: for every 12-byte input `b`, `j_object_id_data` applied to
`j_object_id_new_for_data(b)` yields exactly the twelve bytes of `b`, in the
same order, whatever the new block held and whatever follows `b` in memory. -/
theorem data_new_for_data (fresh : JObjectID) (b : Nat → Byte) :
    ∃ view, j_object_id_data (j_object_id_new_for_data fresh (some b)) = some view ∧
      ∀ i : Fin 12, view i = b i.val := by
  refine ⟨_, rfl, ?_⟩
  intro i
  simp [memcpy]

/-- C3: for every identifier and every index `i` in 0..11, character `2i` of
the result of `j_object_id_hex` is the lowercase hex digit of the high nibble
of byte `i` as an unsigned value, character `2i+1` that of its low nibble, and
position 24 is the NUL terminator, for signed and for unsigned `gchar`; the
bytes `00 00 00 01 00 00 00 02 00 00 00 03` render as
`"000000010000000200000003"`. -/
theorem hex_digits (host : Host) (fresh : Fin 25 → Char) :
    (∀ id : JObjectID, ∃ buf, j_object_id_hex host fresh (some id) = some buf ∧
      (∀ i : Fin 12,
        buf ⟨2 * i.val, by omega⟩ = hexDigit ((id.chars i).val / 16) ∧
        buf ⟨2 * i.val + 1, by omega⟩ = hexDigit ((id.chars i).val % 16)) ∧
      buf 24 = '\x00') ∧
    (j_object_id_hex host fresh (some exampleId)).map cString
      = some "000000010000000200000003".toList := by
  constructor
  · intro id
    refine ⟨_, hex_some host fresh id, ?_, ?_⟩
    · intro i
      exact ⟨hex_high_at host fresh id i, hex_low_at host fresh id i⟩
    · rw [Function.update_same]
  · rw [hex_some, Option.map_some', cString_hex]
    decide

/-! ## Words and bytes -/

theorem bits32_lt (v : Int) : bits32 v < 2 ^ 32 := by
  unfold bits32
  omega

theorem bits32_toGint32 (w : Nat) : bits32 (toGint32 w) = w % 2 ^ 32 := by
  unfold bits32 toGint32
  split <;> omega

theorem toGint32_bits32 (v : Int) (h1 : -2 ^ 31 ≤ v) (h2 : v < 2 ^ 31) :
    toGint32 (bits32 v) = v := by
  unfold bits32 toGint32
  split <;> omega

theorem bits32_add_one (c : Int) : bits32 (c + 1) = (bits32 c + 1) % 2 ^ 32 := by
  unfold bits32
  omega

/-- A 32-bit word is the sum of its four bytes. -/
theorem word_decomp (w : Nat) (h : w < 2 ^ 32) :
    ∃ a0 a1 a2 a3, a0 < 256 ∧ a1 < 256 ∧ a2 < 256 ∧ a3 < 256 ∧
      w = a0 + 256 * a1 + 65536 * a2 + 16777216 * a3 := by
  refine ⟨w % 256, w / 256 % 256, w / 256 / 256 % 256, w / 256 / 256 / 256, ?_, ?_, ?_, ?_, ?_⟩ <;>
    omega

theorem word_bytes (a0 a1 a2 a3 : Nat) (h0 : a0 < 256) (h1 : a1 < 256) (h2 : a2 < 256)
    (h3 : a3 < 256) :
    (a0 + 256 * a1 + 65536 * a2 + 16777216 * a3) % 256 = a0 ∧
    (a0 + 256 * a1 + 65536 * a2 + 16777216 * a3) / 256 % 256 = a1 ∧
    (a0 + 256 * a1 + 65536 * a2 + 16777216 * a3) / 65536 % 256 = a2 ∧
    (a0 + 256 * a1 + 65536 * a2 + 16777216 * a3) / 16777216 % 256 = a3 ∧
    (a0 + 256 * a1 + 65536 * a2 + 16777216 * a3) / 16777216 = a3 := by
  refine ⟨?_, ?_, ?_, ?_, ?_⟩ <;> omega

/-- In memory the word `GINT32_TO_BE(v)` has the most significant byte of
`v` first, on either host. -/
theorem wordByte_to_be (host : Host) (v : Int) (j : Nat) (hj : j < 4) :
    wordByte host.byteOrder (bits32 (GINT32_TO_BE host v)) j
      = bits32 v / 256 ^ (3 - j) % 256 := by
  obtain ⟨a0, a1, a2, a3, h0, h1, h2, h3, hw⟩ := word_decomp _ (bits32_lt v)
  obtain ⟨e0, e1, e2, e3, e4⟩ := word_bytes a0 a1 a2 a3 h0 h1 h2 h3
  obtain ⟨f0, f1, f2, f3, f4⟩ := word_bytes a3 a2 a1 a0 h3 h2 h1 h0
  unfold GINT32_TO_BE wordByte
  cases host.byteOrder with
  | littleEndian =>
    simp only
    rw [bits32_toGint32]
    unfold GUINT32_SWAP_LE_BE
    rw [hw]
    norm_num
    rw [e0, e1, e2, e3]
    have hs : (a0 * 16777216 + a1 * 65536 + a2 * 256 + a3) % 4294967296
        = a3 + 256 * a2 + 65536 * a1 + 16777216 * a0 := by omega
    rw [hs]
    interval_cases j <;> simp <;> omega
  | bigEndian =>
    simp only
    rw [bits32_toGint32, hw]
    have hs : (a0 + 256 * a1 + 65536 * a2 + 16777216 * a3) % 2 ^ 32
        = a0 + 256 * a1 + 65536 * a2 + 16777216 * a3 := by omega
    rw [hs]

/-- The bytes of an identifier after `j_object_id_init`, offset by offset. -/
theorem init_chars (host : Host) (os : Env) (st : Statics) (id : JObjectID) :
    ∃ id1, j_object_id_init host os st (some id) =
        (nextStatics os st, some id1) ∧
      ∀ i : Fin 12, (id1.chars i).val =
        if i.val / 4 = 0 then bits32 os.tv_sec / 256 ^ (3 - i.val % 4) % 256
        else if i.val / 4 = 1 then
          wordByte host.byteOrder (bits32 (if st.pid = 0 then os.getpid else st.pid)) (i.val % 4)
            % 256
        else bits32 st.counter / 256 ^ (3 - i.val % 4) % 256 := by
  refine ⟨_, rfl, ?_⟩
  intro i
  have hi := i.isLt
  have hm : i.val % 4 < 4 := Nat.mod_lt _ (by decide)
  have hcase : i.val / 4 = 0 ∨ i.val / 4 = 1 ∨ i.val / 4 = 2 := by omega
  have hbe := fun v => wordByte_to_be host v _ hm
  rcases hcase with h | h | h
  · simp [setInt, g_atomic_int_exchange_and_add, h, hbe]
  · simp [setInt, g_atomic_int_exchange_and_add, h, hbe]
  · simp [setInt, g_atomic_int_exchange_and_add, h, hbe]

theorem wordByte_lt (order : ByteOrder) (w j : Nat) : wordByte order w j < 256 := by
  unfold wordByte
  cases order <;> exact Nat.mod_lt _ (by decide)

/-- The twelve bytes after `j_object_id_init`: the time big-endian, the
process id as the host stores it, the counter big-endian. -/
theorem init_bytes (host : Host) (os : Env) (st : Statics) (id : JObjectID) :
    ∃ id1, j_object_id_init host os st (some id) =
        (nextStatics os st, some id1) ∧
      bytes id1 = encodeBE (bits32 os.tv_sec)
        ++ hostBytes host.byteOrder (bits32 (pidOf os st))
        ++ encodeBE (bits32 st.counter) := by
  obtain ⟨id1, h1, h2⟩ := init_chars host os st id
  refine ⟨id1, h1, ?_⟩
  have hw := fun j => Nat.mod_eq_of_lt (wordByte_lt host.byteOrder (bits32 (pidOf os st)) j)
  unfold pidOf at hw
  simp only [bytes, List.ofFn_succ, List.ofFn_zero, h2, encodeBE, hostBytes, pidOf]
  simp [hw]

/-- Reading back a word the host has stored gives the word. -/
theorem wordOfBytes_wordByte (order : ByteOrder) (w : Nat) (h : w < 2 ^ 32) :
    wordOfBytes order (wordByte order w 0) (wordByte order w 1) (wordByte order w 2)
      (wordByte order w 3) = w := by
  obtain ⟨a0, a1, a2, a3, h0, h1, h2, h3, hw⟩ := word_decomp w h
  obtain ⟨e0, e1, e2, e3, e4⟩ := word_bytes a0 a1 a2 a3 h0 h1 h2 h3
  subst hw
  cases order <;> simp [wordOfBytes, wordByte, e0, e1, e2, e3]

theorem encodeBE_decode (w : Nat) (h : w < 2 ^ 32) :
    wordOfBytes .bigEndian (w / 256 ^ 3 % 256) (w / 256 ^ 2 % 256) (w / 256 % 256) (w % 256)
      = w := by
  obtain ⟨a0, a1, a2, a3, h0, h1, h2, h3, hw⟩ := word_decomp w h
  obtain ⟨e0, e1, e2, e3, e4⟩ := word_bytes a0 a1 a2 a3 h0 h1 h2 h3
  subst hw
  simp [wordOfBytes, e0, e1, e2, e3]

/-- The three fields of an identifier after `j_object_id_init`, decoded. -/
theorem init_fields (host : Host) (os : Env) (st : Statics) (id : JObjectID) :
    ∃ id1, j_object_id_init host os st (some id) =
        (nextStatics os st, some id1) ∧
      decodeBE id1 0 = bits32 os.tv_sec ∧
      getInt host id1 1 = toGint32 (bits32 (pidOf os st)) ∧
      decodeBE id1 2 = bits32 st.counter := by
  obtain ⟨id1, h1, h2⟩ := init_chars host os st id
  refine ⟨id1, h1, ?_, ?_, ?_⟩
  · have h := encodeBE_decode _ (bits32_lt os.tv_sec)
    simp only [decodeBE, h2]
    simpa using h
  · have h := wordOfBytes_wordByte host.byteOrder _ (bits32_lt (pidOf os st))
    have hw := fun j => Nat.mod_eq_of_lt (wordByte_lt host.byteOrder (bits32 (pidOf os st)) j)
    unfold pidOf at h hw
    simp only [getInt, h2]
    simp [hw, h, pidOf]
  · have h := encodeBE_decode _ (bits32_lt st.counter)
    simp only [decodeBE, h2]
    simpa using h

/-- Everything `j_object_id_init` does on a non-null identifier: the statics
after the call, the twelve bytes, and the three fields decoded. -/
theorem init_spec (host : Host) (os : Env) (st : Statics) (id : JObjectID) :
    ∃ id1, j_object_id_init host os st (some id) =
        (nextStatics os st, some id1) ∧
      bytes id1 = encodeBE (bits32 os.tv_sec)
        ++ hostBytes host.byteOrder (bits32 (pidOf os st))
        ++ encodeBE (bits32 st.counter) ∧
      decodeBE id1 0 = bits32 os.tv_sec ∧
      getInt host id1 1 = toGint32 (bits32 (pidOf os st)) ∧
      decodeBE id1 2 = bits32 st.counter := by
  obtain ⟨id1, h1, h2⟩ := init_bytes host os st id
  obtain ⟨id2, h3, h4⟩ := init_fields host os st id
  have he : id2 = id1 := by
    rw [h1] at h3
    injection h3 with _ h5
    injection h5 with h6
    exact h6.symm
  subst he
  exact ⟨id2, h1, h2, h4⟩

/-- One step of the caller `initAll`. -/
theorem initAll_cons (host : Host) (st : Statics) (os : Env) (id : JObjectID)
    (rest : List (Env × JObjectID)) :
    ∃ id1, j_object_id_init host os st (some id) =
        (nextStatics os st, some id1) ∧
      initAll host st ((os, id) :: rest) =
        ((initAll host (nextStatics os st) rest).1,
          id1 :: (initAll host (nextStatics os st) rest).2) :=
  ⟨_, rfl, rfl⟩

/-- Once `pid` holds a non-zero value, every later call stores that value. -/
theorem initAll_pid_kept (host : Host) (l : List (Env × JObjectID)) (st : Statics)
    (h0 : st.pid ≠ 0) :
    (initAll host st l).2.map (fun id => getInt host id 1)
      = List.replicate l.length (toGint32 (bits32 st.pid)) := by
  induction l generalizing st with
  | nil => rfl
  | cons c rest ih =>
    obtain ⟨os, id⟩ := c
    obtain ⟨id1, h1, h2⟩ := initAll_cons host st os id rest
    obtain ⟨id2, h3, _, _, h4, _⟩ := init_spec host os st id
    have he : id2 = id1 := by
      rw [h1] at h3
      injection h3 with _ h5
      injection h5 with h6
      exact h6.symm
    subst he
    have hp : pidOf os st = st.pid := by
      unfold pidOf
      rw [if_neg h0]
    have hn : (nextStatics os st).pid = st.pid := hp
    rw [hp] at h4
    rw [h2, List.map_cons, h4, List.length_cons, List.replicate_succ,
      ih (nextStatics os st) (by rw [hn]; exact h0), hn]

/-- While the operating system answers `p` at every call, every call stores
`p`, whether `pid` has been captured before or not. -/
theorem initAll_pid_const (host : Host) (p : Int) (l : List (Env × JObjectID))
    (hall : ∀ c ∈ l, c.1.getpid = p) (st : Statics) (hst : st.pid = 0 ∨ st.pid = p) :
    (initAll host st l).2.map (fun id => getInt host id 1)
      = List.replicate l.length (toGint32 (bits32 p)) := by
  induction l generalizing st with
  | nil => rfl
  | cons c rest ih =>
    obtain ⟨os, id⟩ := c
    obtain ⟨id1, h1, h2⟩ := initAll_cons host st os id rest
    obtain ⟨id2, h3, _, _, h4, _⟩ := init_spec host os st id
    have he : id2 = id1 := by
      rw [h1] at h3
      injection h3 with _ h5
      injection h5 with h6
      exact h6.symm
    subst he
    have hos : os.getpid = p := hall (os, id) (List.mem_cons_self _ _)
    have hp : pidOf os st = p := by
      unfold pidOf
      rcases hst with h | h
      · rw [if_pos h, hos]
      · by_cases hz : st.pid = 0
        · rw [if_pos hz, hos]
        · rw [if_neg hz, h]
    have hn : (nextStatics os st).pid = p := hp
    rw [hp] at h4
    rw [h2, List.map_cons, h4, List.length_cons, List.replicate_succ,
      ih (fun c hc => hall c (List.mem_cons_of_mem _ hc)) (nextStatics os st) (Or.inr hn)]

/-! ## Lexicographic order of byte lists -/

theorem lex_append_left (l : List Nat) {x y : List Nat} (h : List.Lex (· < ·) x y) :
    List.Lex (· < ·) (l ++ x) (l ++ y) := by
  induction l with
  | nil => exact h
  | cons a l ih => exact List.Lex.cons ih

theorem lex_cons_of_le {a b : Nat} {x y : List Nat} (hab : a ≤ b)
    (h : a = b → List.Lex (· < ·) x y) : List.Lex (· < ·) (a :: x) (b :: y) := by
  rcases Nat.lt_or_eq_of_le hab with hlt | heq
  · exact List.Lex.rel hlt
  · subst heq
    exact List.Lex.cons (h rfl)

theorem be_bytes_lex (a0 a1 a2 a3 b0 b1 b2 b3 : Nat) (ha0 : a0 < 256) (ha1 : a1 < 256)
    (ha2 : a2 < 256) (hb0 : b0 < 256) (hb1 : b1 < 256) (hb2 : b2 < 256)
    (h : a0 + 256 * a1 + 65536 * a2 + 16777216 * a3
      < b0 + 256 * b1 + 65536 * b2 + 16777216 * b3) (x y : List Nat) :
    List.Lex (· < ·) (a3 :: a2 :: a1 :: a0 :: x) (b3 :: b2 :: b1 :: b0 :: y) := by
  refine lex_cons_of_le (by omega) (fun h3 => ?_)
  refine lex_cons_of_le (by omega) (fun h2 => ?_)
  refine lex_cons_of_le (by omega) (fun h1 => ?_)
  exact List.Lex.rel (by omega)

/-- Big-endian encoding turns the order of 32-bit words into the
lexicographic order of byte lists, whatever follows the four bytes. -/
theorem encodeBE_lt (v w : Nat) (hv : v < 2 ^ 32) (hw : w < 2 ^ 32) (h : v < w)
    (x y : List Nat) : List.Lex (· < ·) (encodeBE v ++ x) (encodeBE w ++ y) := by
  obtain ⟨a0, a1, a2, a3, ha0, ha1, ha2, ha3, ea⟩ := word_decomp v hv
  obtain ⟨b0, b1, b2, b3, hb0, hb1, hb2, hb3, eb⟩ := word_decomp w hw
  obtain ⟨p0, p1, p2, p3, _⟩ := word_bytes a0 a1 a2 a3 ha0 ha1 ha2 ha3
  obtain ⟨q0, q1, q2, q3, _⟩ := word_bytes b0 b1 b2 b3 hb0 hb1 hb2 hb3
  subst ea eb
  have e1 : encodeBE (a0 + 256 * a1 + 65536 * a2 + 16777216 * a3) = [a3, a2, a1, a0] := by
    simp [encodeBE, p0, p1, p2, p3]
  have e2 : encodeBE (b0 + 256 * b1 + 65536 * b2 + 16777216 * b3) = [b3, b2, b1, b0] := by
    simp [encodeBE, q0, q1, q2, q3]
  rw [e1, e2]
  exact be_bytes_lex a0 a1 a2 a3 b0 b1 b2 b3 ha0 ha1 ha2 hb0 hb1 hb2 h x y

theorem pidOf_of_ne (os : Env) (st : Statics) (h : st.pid ≠ 0) : pidOf os st = st.pid := by
  unfold pidOf
  rw [if_neg h]

/-- The counter held after a run of calls, as a 32-bit pattern. -/
theorem initAll_counter (host : Host) (l : List (Env × JObjectID)) (st : Statics) :
    bits32 (initAll host st l).1.counter = (bits32 st.counter + l.length) % 2 ^ 32 := by
  induction l generalizing st with
  | nil =>
    have := bits32_lt st.counter
    show bits32 st.counter = (bits32 st.counter + 0) % 2 ^ 32
    omega
  | cons c rest ih =>
    obtain ⟨os, id⟩ := c
    obtain ⟨id1, _, h2⟩ := initAll_cons host st os id rest
    rw [h2]
    show bits32 (initAll host (nextStatics os st) rest).1.counter = _
    rw [ih]
    have hn : bits32 (nextStatics os st).counter = (bits32 st.counter + 1) % 2 ^ 32 := by
      show bits32 (toGint32 (bits32 (st.counter + 1))) = _
      rw [bits32_toGint32, Nat.mod_eq_of_lt (bits32_lt _), bits32_add_one]
    rw [hn, List.length_cons]
    omega

/-- The `pid` held after a run of calls that starts with `pid` captured. -/
theorem initAll_pid (host : Host) (l : List (Env × JObjectID)) (st : Statics)
    (h0 : st.pid ≠ 0) : (initAll host st l).1.pid = st.pid := by
  induction l generalizing st with
  | nil => rfl
  | cons c rest ih =>
    obtain ⟨os, id⟩ := c
    obtain ⟨id1, _, h2⟩ := initAll_cons host st os id rest
    have hn : (nextStatics os st).pid = st.pid := by
      show pidOf os st = st.pid
      unfold pidOf
      rw [if_neg h0]
    rw [h2]
    show (initAll host (nextStatics os st) rest).1.pid = _
    rw [ih (nextStatics os st) (by rw [hn]; exact h0), hn]

/-! ## Further facts on identifiers and digests -/

theorem bytes_injective {a b : JObjectID} (h : bytes a = bytes b) : a = b := by
  unfold bytes at h
  have h1 := List.ofFn_injective h
  cases a with
  | mk ca =>
    cases b with
    | mk cb =>
      congr
      funext i
      exact Fin.ext (congrFun h1 i)

/-- The result of `j_object_id_init` does not depend on what the identifier
held before: every one of the twelve bytes is overwritten. -/
theorem init_overwrites (host : Host) (os : Env) (st : Statics) (a b : JObjectID) :
    j_object_id_init host os st (some a) = j_object_id_init host os st (some b) := by
  obtain ⟨a1, h1, h2⟩ := init_chars host os st a
  obtain ⟨b1, h3, h4⟩ := init_chars host os st b
  rw [h1, h3]
  have he : a1 = b1 := by
    cases a1 with
    | mk ca =>
      cases b1 with
      | mk cb =>
        congr
        funext i
        exact Fin.ext ((h2 i).trans (h4 i).symm)
  rw [he]

theorem lex_cons_iff {α : Type} (r : α → α → Prop) (a b : α) (x y : List α) :
    List.Lex r (a :: x) (b :: y) ↔ r a b ∨ (a = b ∧ List.Lex r x y) := by
  constructor
  · intro h
    cases h with
    | cons h => exact Or.inr ⟨rfl, h⟩
    | rel h => exact Or.inl h
  · rintro (h | ⟨rfl, h⟩)
    · exact List.Lex.rel h
    · exact List.Lex.cons h

theorem hexDigit_lt_iff : ∀ m n : Fin 16, hexDigit m.val < hexDigit n.val ↔ m.val < n.val := by
  decide

theorem hexDigit_eq_iff : ∀ m n : Fin 16, hexDigit m.val = hexDigit n.val ↔ m.val = n.val := by
  decide

/-- The rendering rule preserves the lexicographic order: hexadecimal digits
are ordered as their values and the high nibble comes first. -/
theorem hexOfBytes_lex (l1 l2 : List Nat) (h1 : ∀ b ∈ l1, b < 256) (h2 : ∀ b ∈ l2, b < 256) :
    List.Lex (· < ·) (hexOfBytes l1) (hexOfBytes l2) ↔ List.Lex (· < ·) l1 l2 := by
  induction l1 generalizing l2 with
  | nil =>
    cases l2 with
    | nil => simp [hexOfBytes]
    | cons b bs => exact ⟨fun _ => List.Lex.nil, fun _ => List.Lex.nil⟩
  | cons a as ih =>
    cases l2 with
    | nil => simp [hexOfBytes]
    | cons b bs =>
      have ha : a < 256 := h1 a (List.mem_cons_self _ _)
      have hb : b < 256 := h2 b (List.mem_cons_self _ _)
      have ih1 := ih bs (fun x hx => h1 x (List.mem_cons_of_mem _ hx))
        (fun x hx => h2 x (List.mem_cons_of_mem _ hx))
      have d1 := hexDigit_lt_iff ⟨a / 16, by omega⟩ ⟨b / 16, by omega⟩
      have d2 := hexDigit_eq_iff ⟨a / 16, by omega⟩ ⟨b / 16, by omega⟩
      have d3 := hexDigit_lt_iff ⟨a % 16, by omega⟩ ⟨b % 16, by omega⟩
      have d4 := hexDigit_eq_iff ⟨a % 16, by omega⟩ ⟨b % 16, by omega⟩
      simp only at d1 d2 d3 d4
      simp only [hexOfBytes, lex_cons_iff, d1, d2, d3, d4, ih1]
      constructor
      · rintro (h | ⟨h, h3 | ⟨h3, h4⟩⟩)
        · exact Or.inl (by omega)
        · exact Or.inl (by omega)
        · exact Or.inr ⟨by omega, h4⟩
      · rintro (h | ⟨h, h3⟩)
        · by_cases hq : a / 16 < b / 16
          · exact Or.inl hq
          · exact Or.inr ⟨by omega, Or.inl (by omega)⟩
        · exact Or.inr ⟨by omega, Or.inr ⟨by omega, h3⟩⟩

theorem hexOfBytes_injective (l1 l2 : List Nat) (h1 : ∀ b ∈ l1, b < 256)
    (h2 : ∀ b ∈ l2, b < 256) (h : hexOfBytes l1 = hexOfBytes l2) : l1 = l2 := by
  have e1 := decodeHex_hexOfBytes l1 h1
  have e2 := decodeHex_hexOfBytes l2 h2
  rw [h, e2] at e1
  injection e1 with e3
  exact e3.symm

/-- The stored process ids of an earlier and a later call compare as the
claim on sorting needs: they are equal once `pid` is captured, and an
uncaptured `pid` stores four zero bytes, below any other four bytes. -/
theorem pid_bytes_lex (order : ByteOrder) (q1 q2 : Int) (h : q1 = 0 ∨ q2 = q1)
    {x y : List Nat} (hxy : List.Lex (· < ·) x y) :
    List.Lex (· < ·) (hostBytes order (bits32 q1) ++ x) (hostBytes order (bits32 q2) ++ y) := by
  by_cases hq : q2 = q1
  · rw [hq]
    exact lex_append_left _ hxy
  · have h0 : q1 = 0 := h.resolve_right hq
    subst h0
    have hz : ∀ j, wordByte order (bits32 0) j = 0 := by
      intro j
      have hb : bits32 0 = 0 := by decide
      rw [hb]
      cases order <;> simp [wordByte]
    simp only [hostBytes, hz]
    show List.Lex (· < ·) (0 :: 0 :: 0 :: 0 :: x) (_ :: _ :: _ :: _ :: y)
    refine lex_cons_of_le (Nat.zero_le _) (fun _ => ?_)
    refine lex_cons_of_le (Nat.zero_le _) (fun _ => ?_)
    refine lex_cons_of_le (Nat.zero_le _) (fun _ => ?_)
    exact lex_cons_of_le (Nat.zero_le _) (fun _ => hxy)

/-! ## Claims on initialisation -/

/-- C4: for every wall-clock reading with whole seconds `t`, after
`j_object_id_init` bytes 0..3 are the big-endian 32-bit encoding of `t`, most
significant byte at offset 0; only `t` modulo `2^32` is stored and the
sub-second part plays no role. -/
theorem init_seconds (host : Host) (os : Env) (st : Statics) (id : JObjectID) :
    (∃ id1, (j_object_id_init host os st (some id)).2 = some id1 ∧
      (bytes id1).take 4 = encodeBE (bits32 os.tv_sec) ∧
      decodeBE id1 0 = bits32 os.tv_sec) ∧
    ∀ usec : Int, j_object_id_init host { os with tv_usec := usec } st (some id)
      = j_object_id_init host os st (some id) := by
  constructor
  · obtain ⟨id1, h1, h2⟩ := init_bytes host os st id
    obtain ⟨id2, h3, h4, _, _⟩ := init_fields host os st id
    have he : id2 = id1 := by
      rw [h1] at h3
      injection h3 with _ h5
      injection h5 with h6
      exact h6.symm
    subst he
    refine ⟨id2, by rw [h1], ?_, h4⟩
    rw [h2]
    rfl
  · intro usec
    rfl

/-- C5: for every value `c` of the process-wide counter at the moment of a
`j_object_id_init` call, bytes 8..11 afterwards are the big-endian 32-bit
encoding of `c`, the value before the increment, and not that of `c + 1`,
which is what the counter holds afterwards. -/
theorem init_stores_old_counter (host : Host) (os : Env) (st : Statics) (id : JObjectID) :
    ∃ id1, (j_object_id_init host os st (some id)).2 = some id1 ∧
      (bytes id1).drop 8 = encodeBE (bits32 st.counter) ∧
      decodeBE id1 2 = bits32 st.counter ∧
      decodeBE id1 2 ≠ bits32 (st.counter + 1) ∧
      bits32 (j_object_id_init host os st (some id)).1.counter = bits32 (st.counter + 1) := by
  obtain ⟨id1, h1, h2⟩ := init_bytes host os st id
  obtain ⟨id2, h3, _, _, h4⟩ := init_fields host os st id
  have he : id2 = id1 := by
    rw [h1] at h3
    injection h3 with _ h5
    injection h5 with h6
    exact h6.symm
  subst he
  refine ⟨id2, by rw [h1], ?_, h4, ?_, ?_⟩
  · rw [h2]
    rfl
  · rw [h4, bits32_add_one]
    have := bits32_lt st.counter
    omega
  · rw [h1]
    show bits32 (toGint32 (bits32 (st.counter + 1))) = bits32 (st.counter + 1)
    rw [bits32_toGint32]
    exact Nat.mod_eq_of_lt (bits32_lt _)

/-- C6: in a process, that is from the statics at process start and with the
operating system answering the one process id `p` (a `GPid`, so a 32-bit
integer) whenever asked, bytes 4..7 of every identifier `j_object_id_init`
initialises, read as a 32-bit integer in the host's byte order, equal `p`. -/
theorem init_pid_is_process_id (host : Host) (p : Int) (calls : List (Env × JObjectID))
    (hlo : -2 ^ 31 ≤ p) (hhi : p < 2 ^ 31) (hos : ∀ c ∈ calls, c.1.getpid = p) :
    (initAll host Statics.initial calls).2.map (fun id => getInt host id 1)
      = List.replicate calls.length p := by
  have h := initAll_pid_const host p calls hos Statics.initial (Or.inl rfl)
  rw [toGint32_bits32 p hlo hhi] at h
  exact h

/-- Witness for C6: three calls in process 4242 on a little-endian host. -/
theorem init_pid_is_process_id_witness :
    (initAll { byteOrder := .littleEndian, charSigned := true } Statics.initial
        [({ getpid := 4242, tv_sec := 1300000000, tv_usec := 5 }, exampleId),
         ({ getpid := 4242, tv_sec := 1300000000, tv_usec := 9 }, exampleId),
         ({ getpid := 4242, tv_sec := 1300000001, tv_usec := 0 }, exampleId)]).2.map
      (fun id => getInt { byteOrder := .littleEndian, charSigned := true } id 1)
      = [4242, 4242, 4242] :=
  init_pid_is_process_id _ 4242 _ (by decide) (by decide) (by decide)

/-- C7: for every starting counter value `c`, two successive
`j_object_id_init` calls both succeed and their counter fields, bytes 8..11
decoded big-endian, differ by exactly 1 modulo `2^32`; `0x7fffffff` is
followed by `0x80000000` and `0xffffffff` by `0`. -/
theorem successive_counters (host : Host) (os1 os2 : Env) (id1 id2 : JObjectID) :
    (∀ st : Statics, ∃ a b,
      (j_object_id_init host os1 st (some id1)).2 = some a ∧
      (j_object_id_init host os2 (j_object_id_init host os1 st (some id1)).1 (some id2)).2
        = some b ∧
      decodeBE b 2 = (decodeBE a 2 + 1) % 2 ^ 32) ∧
    (∀ pid : Int, ∃ a b,
      (j_object_id_init host os1 { pid := pid, counter := 0x7fffffff } (some id1)).2 = some a ∧
      (j_object_id_init host os2
        (j_object_id_init host os1 { pid := pid, counter := 0x7fffffff } (some id1)).1
        (some id2)).2 = some b ∧
      decodeBE a 2 = 0x7fffffff ∧ decodeBE b 2 = 0x80000000) ∧
    (∀ pid : Int, ∃ a b,
      (j_object_id_init host os1 { pid := pid, counter := -1 } (some id1)).2 = some a ∧
      (j_object_id_init host os2
        (j_object_id_init host os1 { pid := pid, counter := -1 } (some id1)).1
        (some id2)).2 = some b ∧
      decodeBE a 2 = 0xffffffff ∧ decodeBE b 2 = 0) := by
  have key : ∀ st : Statics, ∃ a b,
      (j_object_id_init host os1 st (some id1)).2 = some a ∧
      (j_object_id_init host os2 (j_object_id_init host os1 st (some id1)).1 (some id2)).2
        = some b ∧
      decodeBE a 2 = bits32 st.counter ∧ decodeBE b 2 = (bits32 st.counter + 1) % 2 ^ 32 := by
    intro st
    obtain ⟨a, h1, _, _, _, h2⟩ := init_spec host os1 st id1
    obtain ⟨b, h3, _, _, _, h4⟩ := init_spec host os2 (nextStatics os1 st) id2
    refine ⟨a, b, by rw [h1], by rw [h1, h3], h2, ?_⟩
    rw [h4]
    show bits32 (toGint32 (bits32 (st.counter + 1))) = _
    rw [bits32_toGint32, Nat.mod_eq_of_lt (bits32_lt _), bits32_add_one]
  refine ⟨?_, ?_, ?_⟩
  · intro st
    obtain ⟨a, b, h1, h2, h3, h4⟩ := key st
    exact ⟨a, b, h1, h2, by rw [h3, h4]⟩
  · intro pid
    obtain ⟨a, b, h1, h2, h3, h4⟩ := key { pid := pid, counter := 0x7fffffff }
    have e1 : bits32 0x7fffffff = 0x7fffffff := by decide
    have e2 : (bits32 0x7fffffff + 1) % 2 ^ 32 = 0x80000000 := by decide
    exact ⟨a, b, h1, h2, h3.trans e1, h4.trans e2⟩
  · intro pid
    obtain ⟨a, b, h1, h2, h3, h4⟩ := key { pid := pid, counter := -1 }
    have e1 : bits32 (-1) = 0xffffffff := by decide
    have e2 : (bits32 (-1) + 1) % 2 ^ 32 = 0 := by decide
    exact ⟨a, b, h1, h2, h3.trans e1, h4.trans e2⟩

/-- C8: the process id is captured at the first `j_object_id_init` call of the
process and that value is stored by every call: when the first query of the
operating system returns the process id `p` (never 0, which no process has,
and a 32-bit integer), all identifiers of any sequence of calls carry `p` in
bytes 4..7, whatever the query would return at later calls. -/
theorem init_pid_captured_once (host : Host) (os : Env) (id : JObjectID)
    (later : List (Env × JObjectID))
    (hne : os.getpid ≠ 0) (hlo : -2 ^ 31 ≤ os.getpid) (hhi : os.getpid < 2 ^ 31) :
    (initAll host Statics.initial ((os, id) :: later)).2.map (fun id => getInt host id 1)
      = List.replicate (later.length + 1) os.getpid := by
  obtain ⟨id1, h1, h2⟩ := initAll_cons host Statics.initial os id later
  obtain ⟨id2, h3, _, _, h4, _⟩ := init_spec host os Statics.initial id
  have he : id2 = id1 := by
    rw [h1] at h3
    injection h3 with _ h5
    injection h5 with h6
    exact h6.symm
  subst he
  have hp : pidOf os Statics.initial = os.getpid := rfl
  have hn : (nextStatics os Statics.initial).pid = os.getpid := rfl
  rw [hp] at h4
  rw [h2, List.map_cons, h4, List.replicate_succ,
    initAll_pid_kept host later (nextStatics os Statics.initial) (by rw [hn]; exact hne), hn,
    toGint32_bits32 _ hlo hhi]

/-- Witness for C8: the first query returns 4242, the later ones 7 and 0. -/
theorem init_pid_captured_once_witness :
    (initAll { byteOrder := .bigEndian, charSigned := false } Statics.initial
        [({ getpid := 4242, tv_sec := 1300000000, tv_usec := 5 }, exampleId),
         ({ getpid := 7, tv_sec := 1300000000, tv_usec := 9 }, exampleId),
         ({ getpid := 0, tv_sec := 1300000001, tv_usec := 0 }, exampleId)]).2.map
      (fun id => getInt { byteOrder := .bigEndian, charSigned := false } id 1)
      = [4242, 4242, 4242] :=
  init_pid_captured_once _ { getpid := 4242, tv_sec := 1300000000, tv_usec := 5 } exampleId
    [({ getpid := 7, tv_sec := 1300000000, tv_usec := 9 }, exampleId),
     ({ getpid := 0, tv_sec := 1300000001, tv_usec := 0 }, exampleId)]
    (by decide) (by decide) (by decide)

/-- C9: for two `j_object_id_init` calls in the same process, the first at
time `t1` with counter `c1`, a later one at time `t2` with counter `c2`, where
`0 ≤ t1 ≤ t2 < 2^32` and `c1 < c2` as unsigned 32-bit values, the twelve bytes
of the first identifier are strictly smaller than those of the second in
unsigned byte-wise lexicographic order. -/
theorem init_sorted (host : Host) (st : Statics) (os1 os2 : Env) (id1 id2 : JObjectID)
    (between : List (Env × JObjectID))
    (ht1 : 0 ≤ os1.tv_sec) (ht : os1.tv_sec ≤ os2.tv_sec) (ht2 : os2.tv_sec < 2 ^ 32)
    (hc : bits32 st.counter
      < bits32 (initAll host (j_object_id_init host os1 st (some id1)).1 between).1.counter) :
    ∃ a b, (j_object_id_init host os1 st (some id1)).2 = some a ∧
      (j_object_id_init host os2
        (initAll host (j_object_id_init host os1 st (some id1)).1 between).1 (some id2)).2
        = some b ∧
      List.Lex (· < ·) (bytes a) (bytes b) := by
  obtain ⟨a, h1, h2, _⟩ := init_spec host os1 st id1
  obtain ⟨b, h3, h4, _⟩ := init_spec host os2 (initAll host (nextStatics os1 st) between).1 id2
  rw [h1] at hc
  refine ⟨a, b, by rw [h1], by rw [h1, h3], ?_⟩
  have hkeep : pidOf os1 st = 0 ∨
      pidOf os2 (initAll host (nextStatics os1 st) between).1 = pidOf os1 st := by
    by_cases hq : pidOf os1 st = 0
    · exact Or.inl hq
    · have h5 : (initAll host (nextStatics os1 st) between).1.pid = pidOf os1 st :=
        initAll_pid host between (nextStatics os1 st) hq
      exact Or.inr (by rw [pidOf_of_ne _ _ (by rw [h5]; exact hq), h5])
  rw [h2, h4, List.append_assoc, List.append_assoc]
  have hb1 : bits32 os1.tv_sec = os1.tv_sec.toNat := by
    unfold bits32
    omega
  have hb2 : bits32 os2.tv_sec = os2.tv_sec.toNat := by
    unfold bits32
    omega
  rcases lt_or_eq_of_le ht with hlt | heq
  · exact encodeBE_lt _ _ (bits32_lt _) (bits32_lt _) (by rw [hb1, hb2]; omega) _ _
  · rw [heq]
    apply lex_append_left
    apply pid_bytes_lex _ _ _ hkeep
    have h := encodeBE_lt _ _ (bits32_lt _) (bits32_lt _) hc [] []
    simpa using h

/-- Witness for C9: two calls in the same second, one call between them. -/
theorem init_sorted_witness :
    ∃ a b,
      (j_object_id_init { byteOrder := .littleEndian, charSigned := true }
        { getpid := 4242, tv_sec := 1300000000, tv_usec := 5 } Statics.initial
        (some exampleId)).2 = some a ∧
      (j_object_id_init { byteOrder := .littleEndian, charSigned := true }
        { getpid := 4242, tv_sec := 1300000000, tv_usec := 8 }
        (initAll { byteOrder := .littleEndian, charSigned := true }
          (j_object_id_init { byteOrder := .littleEndian, charSigned := true }
            { getpid := 4242, tv_sec := 1300000000, tv_usec := 5 } Statics.initial
            (some exampleId)).1
          [({ getpid := 4242, tv_sec := 1300000000, tv_usec := 6 }, exampleId)]).1
        (some exampleId)).2 = some b ∧
      List.Lex (· < ·) (bytes a) (bytes b) :=
  init_sorted { byteOrder := .littleEndian, charSigned := true } Statics.initial
    { getpid := 4242, tv_sec := 1300000000, tv_usec := 5 }
    { getpid := 4242, tv_sec := 1300000000, tv_usec := 8 } exampleId exampleId
    [({ getpid := 4242, tv_sec := 1300000000, tv_usec := 6 }, exampleId)]
    (by decide) (by decide) (by decide) (by decide)

/-- C10: with a null argument `j_object_id_new_for_data`, `j_object_id_hex` and
`j_object_id_data` each return the null result. -/
theorem null_argument_gives_null (host : Host) (fresh : JObjectID)
    (freshBuffer : Fin 25 → Char) :
    j_object_id_new_for_data fresh none = none ∧
      j_object_id_hex host freshBuffer none = none ∧
      j_object_id_data none = none :=
  ⟨rfl, rfl, rfl⟩

/-! ## Claims on purity, construction and uniqueness -/

/-- C12: `j_object_id_hex` is a pure function of the twelve bytes: two
identifiers with equal bytes get equal digests, whatever the new buffers held
before, and a call changes neither the bytes of the identifier nor the
process-wide statics. -/
theorem hex_pure (host : Host) (fresh1 fresh2 : Fin 25 → Char) (st : Statics)
    (a b : JObjectID) (h : bytes a = bytes b) :
    j_object_id_hex host fresh1 (some a) = j_object_id_hex host fresh2 (some b) ∧
      (j_object_id_hex_call host fresh1 st (some a)).1 = st ∧
      (j_object_id_hex_call host fresh1 st (some a)).2.1 = some a ∧
      (j_object_id_hex_call host fresh1 st (some a)).2.2 = j_object_id_hex host fresh1 (some a) := by
  refine ⟨?_, rfl, rfl, rfl⟩
  rw [bytes_injective h, hex_some, hex_some]
  congr 1
  funext k
  rw [hex_apply, hex_apply]

/-- Witness for C12: the example identifier rendered into two different
buffers. -/
theorem hex_pure_witness :
    j_object_id_hex { byteOrder := .littleEndian, charSigned := true } (fun _ => 'x')
        (some exampleId)
      = j_object_id_hex { byteOrder := .littleEndian, charSigned := true } (fun _ => 'y')
        (some exampleId) ∧
      (j_object_id_hex_call { byteOrder := .littleEndian, charSigned := true } (fun _ => 'x')
        { pid := 4242, counter := 7 } (some exampleId)).1 = { pid := 4242, counter := 7 } ∧
      (j_object_id_hex_call { byteOrder := .littleEndian, charSigned := true } (fun _ => 'x')
        { pid := 4242, counter := 7 } (some exampleId)).2.1 = some exampleId ∧
      (j_object_id_hex_call { byteOrder := .littleEndian, charSigned := true } (fun _ => 'x')
        { pid := 4242, counter := 7 } (some exampleId)).2.2
        = j_object_id_hex { byteOrder := .littleEndian, charSigned := true } (fun _ => 'x')
          (some exampleId) :=
  hex_pure _ _ _ _ exampleId exampleId rfl

/-- C13: `j_object_id_new(TRUE)` yields the identifier and the statics that
`j_object_id_init` yields on any new identifier from the same time, pid and
counter state; `j_object_id_new(FALSE)` returns the block as allocated and
leaves the statics unchanged. -/
theorem new_initialises (host : Host) (os : Env) (st : Statics) (fresh other : JObjectID) :
    j_object_id_new host os st fresh true = j_object_id_init host os st (some other) ∧
      j_object_id_new host os st fresh false = (st, some fresh) := by
  refine ⟨?_, rfl⟩
  show j_object_id_init host os st (some fresh) = _
  exact init_overwrites host os st fresh other

/-- C14: two `j_object_id_init` calls of one process that are fewer than
`2^32` calls apart give different counter fields, so the two identifiers
differ in their twelve bytes whatever their timestamps. -/
theorem init_unique (host : Host) (st : Statics) (os1 os2 : Env) (id1 id2 : JObjectID)
    (between : List (Env × JObjectID)) (hnear : between.length + 1 < 2 ^ 32) :
    ∃ a b, (j_object_id_init host os1 st (some id1)).2 = some a ∧
      (j_object_id_init host os2
        (initAll host (j_object_id_init host os1 st (some id1)).1 between).1 (some id2)).2
        = some b ∧
      decodeBE a 2 ≠ decodeBE b 2 ∧ bytes a ≠ bytes b := by
  obtain ⟨a, h1, _, _, _, h2⟩ := init_spec host os1 st id1
  obtain ⟨b, h3, _, _, _, h4⟩ :=
    init_spec host os2 (initAll host (nextStatics os1 st) between).1 id2
  have hne : decodeBE a 2 ≠ decodeBE b 2 := by
    rw [h2, h4, initAll_counter]
    have hn : bits32 (nextStatics os1 st).counter = (bits32 st.counter + 1) % 2 ^ 32 := by
      show bits32 (toGint32 (bits32 (st.counter + 1))) = _
      rw [bits32_toGint32, Nat.mod_eq_of_lt (bits32_lt _), bits32_add_one]
    rw [hn]
    have := bits32_lt st.counter
    omega
  refine ⟨a, b, by rw [h1], by rw [h1, h3], hne, ?_⟩
  intro hb
  exact hne (by rw [bytes_injective hb])

/-- Witness for C14: two calls in the same second with one call between. -/
theorem init_unique_witness :
    ∃ a b,
      (j_object_id_init { byteOrder := .bigEndian, charSigned := false }
        { getpid := 4242, tv_sec := 1300000000, tv_usec := 5 } { pid := 4242, counter := -1 }
        (some exampleId)).2 = some a ∧
      (j_object_id_init { byteOrder := .bigEndian, charSigned := false }
        { getpid := 4242, tv_sec := 1300000000, tv_usec := 8 }
        (initAll { byteOrder := .bigEndian, charSigned := false }
          (j_object_id_init { byteOrder := .bigEndian, charSigned := false }
            { getpid := 4242, tv_sec := 1300000000, tv_usec := 5 }
            { pid := 4242, counter := -1 } (some exampleId)).1
          [({ getpid := 4242, tv_sec := 1300000000, tv_usec := 6 }, exampleId)]).1
        (some exampleId)).2 = some b ∧
      decodeBE a 2 ≠ decodeBE b 2 ∧ bytes a ≠ bytes b :=
  init_unique { byteOrder := .bigEndian, charSigned := false } { pid := 4242, counter := -1 }
    { getpid := 4242, tv_sec := 1300000000, tv_usec := 5 }
    { getpid := 4242, tv_sec := 1300000000, tv_usec := 8 } exampleId exampleId
    [({ getpid := 4242, tv_sec := 1300000000, tv_usec := 6 }, exampleId)]
    (by decide)

/-- C15: `j_object_id_init` overwrites all twelve bytes: two identifiers with
arbitrary prior contents, initialised from the same time, pid and counter
state, end with identical bytes and leave identical statics. -/
theorem init_ignores_prior_bytes (host : Host) (os : Env) (st : Statics) (a b : JObjectID) :
    j_object_id_init host os st (some a) = j_object_id_init host os st (some b) ∧
      ∃ r, (j_object_id_init host os st (some a)).2 = some r ∧
        (j_object_id_init host os st (some b)).2 = some r := by
  have h := init_overwrites host os st a b
  obtain ⟨r, h1, _⟩ := init_chars host os st a
  refine ⟨h, r, by rw [h1], by rw [← h, h1]⟩

/-- C16: a `j_object_id_init` call with a null identifier reference leaves
the statics as they were: the counter is not incremented and no process id is
captured. -/
theorem init_null_keeps_statics (host : Host) (os : Env) (st : Statics) :
    j_object_id_init host os st none = (st, none) ∧
      (j_object_id_init host os st none).1.counter = st.counter ∧
      (j_object_id_init host os st none).1.pid = st.pid :=
  ⟨rfl, rfl, rfl⟩

/-- C17: `j_object_id_hex` preserves order: the bytes of `a` are smaller than
those of `b` in unsigned byte-wise lexicographic order exactly when the digest
of `a` is smaller than that of `b` in the lexicographic order of character
codes, and the digests are equal exactly when the bytes are. -/
theorem hex_preserves_order (host : Host) (fresh1 fresh2 : Fin 25 → Char) (a b : JObjectID) :
    ∃ da db, j_object_id_hex host fresh1 (some a) = some da ∧
      j_object_id_hex host fresh2 (some b) = some db ∧
      (List.Lex (· < ·) (bytes a) (bytes b) ↔ List.Lex (· < ·) (cString da) (cString db)) ∧
      (cString da = cString db ↔ bytes a = bytes b) := by
  refine ⟨_, _, hex_some host fresh1 a, hex_some host fresh2 b, ?_, ?_⟩
  · rw [cString_hex, cString_hex]
    exact (hexOfBytes_lex _ _ (bytes_lt a) (bytes_lt b)).symm
  · rw [cString_hex, cString_hex]
    constructor
    · exact hexOfBytes_injective _ _ (bytes_lt a) (bytes_lt b)
    · intro h
      rw [h]

end JObjectId
